import Mathlib

/-!
A verification development for the backport GitHub action
(`src/backport.ts`).  The TypeScript source is shallowly embedded:

* pure string manipulation (label parsing, commit filtering, comment
  formatting) becomes executable Lean functions on `String` / `List Char`;
* the effectful parts (`backportOnce`, `backport`) become interpreters
  over an explicit environment `Env` (outcomes of git commands and
  HTTP requests) producing a trace of `Effect`s and an `Except` result;
* `p-map` (concurrent bounded map) is modelled by an explicit completion
  order: results are written into a slot array indexed by input position.

Logging calls (`info`, `warning`, `debug`, `core.error`, `group`) are not
recorded in traces; `setFailed` is recorded, because the spec talks about
marking the run failed.
-/

namespace Backport

/-! ### JS regular-expression primitives, specialised to the two patterns
in the source: the merge-commit filter and the backport label pattern. -/

/-- ECMAScript whitespace (class `\s`); `\S` in the source regexes is its
complement. -/
def isJsSpace (c : Char) : Bool :=
  c.val == 9 || c.val == 10 || c.val == 11 || c.val == 12 || c.val == 13 ||
  c.val == 32 || c.val == 160 || c.val == 5760 ||
  (8192 ≤ c.val && c.val ≤ 8202) ||
  c.val == 8232 || c.val == 8233 || c.val == 8239 || c.val == 8287 ||
  c.val == 12288 || c.val == 65279

/-- Match a literal character sequence at the front of the input, returning
the remainder on success. -/
def matchLit : List Char → List Char → Option (List Char)
  | [], cs => some cs
  | _ :: _, [] => none
  | l :: ls, c :: cs => if c = l then matchLit ls cs else none

/-- After the literal `Merge branch '` of the merge-commit regex, try to
match `\S+' into \S+`: consume one or more non-space characters, then the
literal `' into `, then at least one non-space character.  The
disjunction at each step realises the existential semantics of regex
backtracking. -/
def afterBranchName : List Char → Bool
  | [] => false
  | c :: cs =>
    if isJsSpace c then false
    else
      (match matchLit ("' into ".toList) cs with
        | some (r :: _) => !isJsSpace r
        | some [] => false
        | none => false)
      || afterBranchName cs

/-- `RegExp.prototype.test` for the source pattern
`^Merge branch '\S+' into \S+` (note: anchored at the start only — there
is no `$`). -/
def mergeCommitTest (s : String) : Bool :=
  match matchLit ("Merge branch '".toList) s.toList with
  | some rest => afterBranchName rest
  | none => false

/-- One element of the `pulls.listCommits` response: the commit message and
the commit's API URL, the only two fields the source reads. -/
structure Commit where
  message : String
  url : String
deriving DecidableEq, Repr

/-- `getCommits` (src/backport.ts:53-66), applied to the platform response:
drop commits whose message matches the merge-commit pattern, keep the URLs
of the rest, in order. -/
def getCommits (commits : List Commit) : List String :=
  (commits.filter (fun c => !mergeCommitTest c.message)).map Commit.url

/-! ### Tag parser -/

/-- Split a character list at every space character, exactly like
`String.prototype.split` / `splitOn " "` with a one-character separator:
`"a  b"` becomes `["a", "", "b"]` and `""` becomes `[""]`. -/
def splitChar : List Char → List (List Char)
  | [] => [[]]
  | c :: cs =>
    let r := splitChar cs
    if c = ' ' then [] :: r
    else
      match r with
      | [] => [[c]]
      | w :: ws => (c :: w) :: ws

/-- `labelRegExp.exec` for `^backport ([^ ]+)(?: ([^ ]+))?$`
(src/backport.ts:11): `none` when the label does not match, otherwise the
base capture and the optional head capture.  A match needs the literal
`backport `, then one space-free nonempty word, optionally followed by one
space and a second space-free nonempty word, and nothing else. -/
def parseBackportLabel (s : String) : Option (String × Option String) :=
  match matchLit ("backport ".toList) s.toList with
  | none => none
  | some rest =>
    match splitChar rest with
    | [b] => if b.isEmpty then none else some (⟨b⟩, none)
    | [b, h] =>
        if b.isEmpty || h.isEmpty then none
        else some (⟨b⟩, some ⟨h⟩)
    | _ => none

/-- The default head branch name used when the label carries no explicit
head: `backport-<pullRequestNumber>-to-<base>` (src/backport.ts:49). -/
def defaultHead (pullRequestNumber : Nat) (base : String) : String :=
  "backport-" ++ toString pullRequestNumber ++ "-to-" ++ base

/-- `getLabelNames` (src/backport.ts:13-30): all current label names when
the action is `closed`, the single new label when `labeled`, nothing
otherwise. -/
def getLabelNames (action : String) (label : String)
    (labels : List String) : List String :=
  if action = "closed" then labels
  else if action = "labeled" then [label]
  else []

/-- JS object update `\x7b...m, [k]: v\x7d`: if `k` is already a key its value is
replaced in place (key order kept), otherwise the pair is appended. -/
def objInsert (m : List (String × String)) (k v : String) :
    List (String × String) :=
  if m.any (fun p => p.1 = k) then
    m.map (fun p => if p.1 = k then (k, v) else p)
  else m ++ [(k, v)]

/-- `getBackportBaseToHead` (src/backport.ts:32-51): fold the candidate
label names, inserting `(base, head)` for each match, the head defaulting
to `defaultHead`. -/
def getBackportBaseToHead (action : String) (label : String)
    (labels : List String) (pullRequestNumber : Nat) :
    List (String × String) :=
  (getLabelNames action label labels).foldl
    (fun m name =>
      match parseBackportLabel name with
      | none => m
      | some (base, headOpt) =>
          objInsert m base (headOpt.getD (defaultHead pullRequestNumber base)))
    []

/-- Association lookup by key, first occurrence wins (JS property read). -/
def assocLookup : List (String × String) → String → Option String
  | [], _ => none
  | p :: ps, k => if p.1 = k then some p.2 else assocLookup ps k

/-- Modelled from the spec wording of the tag-parser claim, for comparison
with `getBackportBaseToHead`: the list of `(base, head)` pairs of the
matching labels, in label order, with the default head applied. -/
def matchedEntriesSpec (action : String) (label : String)
    (labels : List String) (pullRequestNumber : Nat) :
    List (String × String) :=
  (getLabelNames action label labels).filterMap
    (fun s =>
      (parseBackportLabel s).map
        (fun ph => (ph.1, ph.2.getD (defaultHead pullRequestNumber ph.1))))

/-! ### p-map model

`const patches = await pMap(commits, mapCommits)` runs one mapper per
input index and stores each result at its input's index, whatever order
the fetches complete in.  The completion order is the explicit `order`
argument: a permutation of the indices. -/

/-- Write the mapper results into the slot list, one completion at a
time. -/
def pMapFill (f : α → β) (xs : List α) :
    List Nat → List (Option β) → List (Option β)
  | [], acc => acc
  | i :: rest, acc =>
      pMapFill f xs rest
        (match xs[i]? with
          | some x => acc.set i (some (f x))
          | none => acc)

/-- Run the p-map model with a given completion order, starting from empty
slots. -/
def pMapRun (f : α → β) (xs : List α) (order : List Nat) :
    List (Option β) :=
  pMapFill f xs order (List.replicate xs.length none)

/-- The value `await pMap(xs, f)` resolves to, given the completion order:
`some` of the slot contents when every slot was filled. -/
def pMapResult (f : α → β) (xs : List α) (order : List Nat) :
    Option (List β) :=
  let r := pMapRun f xs order
  if r.all Option.isSome then some (r.filterMap id) else none

/-! ### Effects and environment -/

/-- The externally visible effects of the engine: git commands, platform
API calls, and scratch-file operations. -/
inductive Effect where
  | git (args : List String)
  | request (url : String)
  | listCommits
  | writeFile (file content : String)
  | unlink (file : String)
  | createPull (base head title body : String)
  | createComment (body : String)
  | setFailed
deriving DecidableEq, Repr

/-- Errors: a git command exiting nonzero (`exec` rejects), or
`pulls.create` failing. -/
inductive BError where
  | gitFailed (args : List String)
  | createFailed
deriving DecidableEq, Repr

/-- The rendering of a thrown error as `error.message`; the claims only
need it to be a fixed function of the error. -/
def errorMessage : BError → String
  | .gitFailed args => "git " ++ " ".intercalate args ++ " failed"
  | .createFailed => "pulls.create failed"

/-- The environment resolving every external outcome:
`request` is the patch body served for a commit URL (format `patch`),
`htmlUrl` the `html_url` field served for a plain request on a commit URL,
`listCommitsResp` the `pulls.listCommits` response, `gitOk` whether a git
command exits zero, `amOk` whether `git am -3` succeeds given the
checked-out base and the patch content, `createOk` whether `pulls.create`
succeeds, and the `ctx*` fields are the actions run context used for the
run URL. -/
structure Env where
  request : String → String
  htmlUrl : String → String
  listCommitsResp : List Commit
  gitOk : List String → Bool
  amOk : String → String → Bool
  createOk : Bool
  ctxOwner : String
  ctxRepo : String
  ctxRunId : Nat

/-- Interpreter state: the effect trace so far and whether the scratch
patch file currently exists on disk. -/
structure St where
  trace : List Effect
  scratch : Bool
deriving DecidableEq, Repr

/-- Append one effect to the trace. -/
def emit (e : Effect) (s : St) : St :=
  { s with trace := s.trace ++ [e] }

/-- `fs.writeFile(patchFile, patch)`: the scratch file now exists. -/
def fsWrite (file content : String) (s : St) : St :=
  { trace := s.trace ++ [Effect.writeFile file content], scratch := true }

/-- `fs.unlink(patchFile)`: the scratch file is gone. -/
def fsUnlink (file : String) (s : St) : St :=
  { trace := s.trace ++ [Effect.unlink file], scratch := false }

/-- The local `git` helper (src/backport.ts:89-91): run the command,
record it, and throw (`Except.error`) on nonzero exit. -/
def runGit (env : Env) (args : List String) (s : St) :
    St × Except BError Unit :=
  let s := emit (Effect.git args) s
  if env.gitOk args then (s, Except.ok ()) else (s, Except.error (BError.gitFailed args))

/-- The scratch patch file path, `path.join(__dirname, repo + ".patch")`
with the directory abstracted away. -/
def patchFile (repo : String) : String := repo ++ ".patch"

/-- The argument list of the three-way apply command
`git am -3 --ignore-whitespace <patchFile>`. -/
def amApplyArgs (repo : String) : List String :=
  ["am", "-3", "--ignore-whitespace", patchFile repo]

/-- The argument list of `git am --abort`. -/
def amAbortArgs : List String := ["am", "--abort"]

/-- The inputs of one `backportOnce` invocation
(src/backport.ts:68-88). -/
structure OnceParams where
  base : String
  head : String
  owner : String
  repo : String
  botUsername : String
  title : String
  body : String
  commits : List String
deriving Repr

/-- The apply command for one patch: record the `git am` invocation and
consult the environment, whose verdict may depend on the checked-out base
and the patch content. -/
def runAm (env : Env) (p : OnceParams) (patch : String) (s : St) :
    St × Except BError Unit :=
  let s := emit (Effect.git (amApplyArgs p.repo)) s
  if env.amOk p.base patch then (s, Except.ok ())
  else (s, Except.error (BError.gitFailed (amApplyArgs p.repo)))

/-- The patch-application loop (src/backport.ts:110-114): for each patch,
write the scratch file, `git am -3 --ignore-whitespace` it, and on success
delete the scratch file and continue; a failing apply throws out of the
loop at once, skipping the delete. -/
def applyLoop (env : Env) (p : OnceParams) (s : St) :
    List String → St × Except BError Unit
  | [] => (s, Except.ok ())
  | patch :: rest =>
    let s := fsWrite (patchFile p.repo) patch s
    match runAm env p patch s with
    | (s, Except.ok _) => applyLoop env p (fsUnlink (patchFile p.repo) s) rest
    | (s, Except.error e) => (s, Except.error e)

/-- The body of `backportOnce`'s `try` block (src/backport.ts:104-125):
fetch, check out the base, create the head branch, apply every patch in
order, push, open the pull request. -/
def tryBody (env : Env) (p : OnceParams) (patches : List String) (s : St) :
    St × Except BError Unit :=
  match runGit env ["fetch", "origin"] s with
  | (s, Except.error e) => (s, Except.error e)
  | (s, Except.ok _) =>
  match runGit env ["checkout", "origin/" ++ p.base] s with
  | (s, Except.error e) => (s, Except.error e)
  | (s, Except.ok _) =>
  match runGit env ["checkout", "-b", p.head] s with
  | (s, Except.error e) => (s, Except.error e)
  | (s, Except.ok _) =>
  match applyLoop env p s patches with
  | (s, Except.error e) => (s, Except.error e)
  | (s, Except.ok _) =>
  match runGit env ["push", "botrepo", p.head] s with
  | (s, Except.error e) => (s, Except.error e)
  | (s, Except.ok _) =>
  let s := emit (Effect.createPull p.base (p.botUsername ++ ":" ++ p.head)
    p.title p.body) s
  if env.createOk then (s, Except.ok ())
  else (s, Except.error BError.createFailed)

/-- The state after the concurrent patch fetch and before the `try` block:
one recorded request per commit (the p-map contract, proved below,
restores input order), no scratch file. -/
def initOnceSt (p : OnceParams) : St :=
  ⟨p.commits.map Effect.request, false⟩

/-- `backportOnce` (src/backport.ts:68-131): fetch the patches, run the
`try` block; on any error from it, run `git am --abort` — which itself
throws on nonzero exit, replacing the original error — and rethrow. -/
def backportOnce (env : Env) (p : OnceParams) : St × Except BError Unit :=
  let patches := p.commits.map env.request
  match tryBody env p patches (initOnceSt p) with
  | (s, Except.ok _) => (s, Except.ok ())
  | (s, Except.error e) =>
    match runGit env amAbortArgs s with
    | (s2, Except.ok _) => (s2, Except.error e)
    | (s2, Except.error e2) => (s2, Except.error e2)

/-! ### Failure comment -/

/-- `Array.prototype.join("\n")`. -/
def joinLines : List String → String
  | [] => ""
  | [s] => s
  | s :: rest => s ++ "\n" ++ joinLines rest

/-- One manual apply command from `apiToPatchUrl`
(src/backport.ts:148-152), given the `html_url` the platform returned for
the commit. -/
def commitCommand (htmlUrl : String) : String :=
  "curl -s " ++ htmlUrl ++ ".patch | git am -3 --ignore-whitespace"

/-- The run URL built from the actions context (src/backport.ts:156). -/
def runUrlOf (ctxOwner ctxRepo : String) (ctxRunId : Nat) : String :=
  "https://github.com/" ++ ctxOwner ++ "/" ++ ctxRepo ++ "/actions/runs/" ++
    toString ctxRunId

/-- The line list of the failure comment (src/backport.ts:158-180), before
joining. -/
def getFailedBackportCommentLines (base head errMsg : String)
    (commitCommands : List String) (runUrl : String) : List String :=
  ["The backport to `" ++ base ++ "` failed:",
   "```",
   errMsg,
   "```",
   "Check [the run](" ++ runUrl ++ ") for full details",
   "To backport manually, run these commands in your terminal:",
   "```bash",
   "# Fetch latest updates from GitHub",
   "git fetch",
   "# Check out the target branch",
   "git checkout " ++ base,
   "# Make sure it's up to date",
   "git pull",
   "# Check out your branch",
   "git checkout -b " ++ head,
   "# Apply the commits from the PR"] ++
  commitCommands ++
  ["# Push it to GitHub",
   "git push --set-upstream origin " ++ head,
   "```",
   "Then, create a pull request where the `base` branch is `" ++ base ++
     "` and the `compare`/`head` branch is `" ++ head ++ "`."]

/-- `getFailedBackportCommentBody` (src/backport.ts:133-181): one platform
request per commit to resolve its `html_url` (via `pMap` over
`apiToPatchUrl`), then pure formatting.  Returns the effects performed and
the comment body. -/
def getFailedBackportCommentBody (env : Env) (base head errMsg : String)
    (commits : List String) : List Effect × String :=
  (commits.map Effect.request,
   joinLines (getFailedBackportCommentLines base head errMsg
     (commits.map (fun u => commitCommand (env.htmlUrl u)))
     (runUrlOf env.ctxOwner env.ctxRepo env.ctxRunId)))

/-! ### Orchestrator -/

/-- The run-level inputs destructured from the webhook payload
(src/backport.ts:183-208). -/
structure RunParams where
  action : String
  label : String
  labels : List String
  merged : Bool
  mergeCommitSha : String
  pullRequestNumber : Nat
  originalTitle : String
  repo : String
  owner : String
  botToken : String
  botUsername : String
deriving Repr

/-- The `backportOnce` arguments built for one `(base, head)` target in
the orchestrator loop (src/backport.ts:257-272). -/
def mkOnceParams (r : RunParams) (base head : String)
    (commits : List String) : OnceParams :=
  { base := base
    head := head
    owner := r.owner
    repo := r.repo
    botUsername := r.botUsername
    title := "[Backport " ++ base ++ "] " ++ r.originalTitle
    body := "Backport " ++ r.mergeCommitSha ++ " from #" ++
      toString r.pullRequestNumber
    commits := commits }

/-- The shared setup commands (src/backport.ts:235-253): clone, register
the bot remote, set committer identity. -/
def setupCmds (r : RunParams) : List (List String) :=
  [["clone", "https://x-access-token:" ++ r.botToken ++ "@github.com/" ++
      r.owner ++ "/" ++ r.repo ++ ".git"],
   ["remote", "add", "botrepo", "https://x-access-token:" ++ r.botToken ++
      "@github.com/" ++ r.botUsername ++ "/" ++ r.repo ++ ".git"],
   ["config", "--global", "user.email",
      "github-actions[bot]@users.noreply.github.com"],
   ["config", "--global", "user.name", "github-actions[bot]"]]

/-- Run a sequence of git commands, stopping at (and propagating) the
first failure. -/
def execGitList (env : Env) : List (List String) → List Effect × Except BError Unit
  | [] => ([], Except.ok ())
  | args :: rest =>
    if env.gitOk args then
      let r := execGitList env rest
      (Effect.git args :: r.1, r.2)
    else ([Effect.git args], Except.error (BError.gitFailed args))

/-- The per-target loop (src/backport.ts:257-293): run `backportOnce`; on
error, build the failure comment (with its per-commit requests), post it,
and mark the run failed; then continue with the remaining targets either
way. -/
def runTargets (env : Env) (r : RunParams) (commits : List String) :
    List (String × String) → List Effect
  | [] => []
  | (base, head) :: rest =>
    let res := backportOnce env (mkOnceParams r base head commits)
    let tTrace :=
      res.1.trace ++
      (match res.2 with
        | Except.ok _ => []
        | Except.error e =>
          let cb := getFailedBackportCommentBody env base head
            (errorMessage e) commits
          cb.1 ++ [Effect.createComment cb.2, Effect.setFailed])
    tTrace ++ runTargets env r commits rest

/-- `backport` (src/backport.ts:183-294): no-op when the pull request is
not merged or no label matches; otherwise run the setup commands
(propagating their failure), list the commits once, and run every
target. -/
def backport (env : Env) (r : RunParams) : List Effect × Except BError Unit :=
  if r.merged = false then ([], Except.ok ())
  else
    let m := getBackportBaseToHead r.action r.label r.labels r.pullRequestNumber
    if m = [] then ([], Except.ok ())
    else
      match execGitList env (setupCmds r) with
      | (t, Except.error e) => (t, Except.error e)
      | (t, Except.ok _) =>
        let commits := getCommits env.listCommitsResp
        (t ++ [Effect.listCommits] ++ runTargets env r commits m, Except.ok ())

/-! ### Derived observations used in the claim statements -/

/-- The patch contents written to the scratch file, in trace order: the
patches actually attempted. -/
def writesOf (t : List Effect) : List String :=
  t.filterMap (fun e =>
    match e with
    | Effect.writeFile _ c => some c
    | _ => none)

/-- The effect sequence of a run of successful patch applications: for
each patch, write the scratch file, apply, delete the scratch file. -/
def applySeq (repo : String) : List String → List Effect
  | [] => []
  | q :: rest =>
      Effect.writeFile (patchFile repo) q ::
      Effect.git (amApplyArgs repo) ::
      Effect.unlink (patchFile repo) ::
      applySeq repo rest

/-- String containment as explicit decomposition of the character data. -/
def strContains (s sub : String) : Prop :=
  ∃ l r, s.data = l ++ sub.data ++ r

/-- String prefix as explicit decomposition of the character data. -/
def strStarts (s pre : String) : Prop :=
  ∃ r, s.data = pre.data ++ r

/-! ### Concrete environments and payloads used by witnesses and
counterexamples -/

/-- An environment in which every external operation succeeds. -/
def envAllOk : Env where
  request := fun _ => "PATCH"
  htmlUrl := fun _ => "https://github.com/o/r/commit/abc"
  listCommitsResp := [⟨"Fix the bug", "u"⟩]
  gitOk := fun _ => true
  amOk := fun _ _ => true
  createOk := true
  ctxOwner := "ctxo"
  ctxRepo := "ctxr"
  ctxRunId := 7

/-- `envAllOk` with a different outcome function for git commands; used to
show the comment body does not depend on it. -/
def envAllOkGitFail : Env :=
  { envAllOk with gitOk := fun _ => false }

/-- `envAllOk` except that every three-way apply fails. -/
def envAmFail : Env :=
  { envAllOk with amOk := fun _ _ => false }

/-- `envAllOk` except that applies fail exactly when the checked-out base
is `one`. -/
def envAmFailOnOne : Env :=
  { envAllOk with amOk := fun base _ => !(base == "one") }

/-- `envAllOk` except that `git push` commands fail. -/
def envPushFail : Env :=
  { envAllOk with gitOk := fun args => !(args.headD "" == "push") }

/-- A two-patch environment in which the second patch fails to apply. -/
def envSecondAmFail : Env :=
  { envAllOk with
      request := fun u => if u == "u1" then "A" else "B"
      amOk := fun _ patch => !(patch == "B") }

/-- A concrete unmerged pull-request payload. -/
def rUnmerged : RunParams where
  action := "closed"
  label := ""
  labels := ["backport a"]
  merged := false
  mergeCommitSha := "sha0"
  pullRequestNumber := 1
  originalTitle := "Title"
  repo := "repo"
  owner := "own"
  botToken := "tok"
  botUsername := "bot"

/-- A concrete merged payload with two backport labels, targets `one` and
`two`. -/
def rTwoTargets : RunParams :=
  { rUnmerged with
      merged := true
      labels := ["backport one", "backport two"] }

/-- Concrete `backportOnce` inputs: one commit, base `b`, head `h`. -/
def pOnce : OnceParams where
  base := "b"
  head := "h"
  owner := "own"
  repo := "repo"
  botUsername := "bot"
  title := "T"
  body := "B"
  commits := ["u"]

/-- Concrete `backportOnce` inputs with two commits, whose patches under
`envSecondAmFail.request` are `A` and `B`. -/
def pTwoCommits : OnceParams :=
  { pOnce with commits := ["u1", "u2"] }

/-- Concrete `backportOnce` inputs with three commits. -/
def pThree : OnceParams :=
  { pOnce with commits := ["u1", "u2", "u3"] }

/-- The state `backportOnce` reaches under `envPushFail` just before the
catch block: all steps up to and including the failing push recorded, the
scratch file deleted by the last successful apply. -/
def stC10 : St where
  trace := [Effect.request "u",
            Effect.git ["fetch", "origin"],
            Effect.git ["checkout", "origin/b"],
            Effect.git ["checkout", "-b", "h"],
            Effect.writeFile "repo.patch" "PATCH",
            Effect.git ["am", "-3", "--ignore-whitespace", "repo.patch"],
            Effect.unlink "repo.patch",
            Effect.git ["push", "botrepo", "h"]]
  scratch := false

end Backport

/-! ## Theorems -/

namespace Backport

/-- Two strings with the same character data are equal. -/
theorem strExt {a b : String} (h : a.data = b.data) : a = b := by
  cases a; cases b; exact congrArg String.mk h

/-- Character data of an append is the append of the character data. -/
theorem strData_append (s t : String) : (s ++ t).data = s.data ++ t.data := rfl

/-! ### C1: the merge-commit filter -/

/-- C1 counterexample: the claim says a commit whose message is
`Merge branch 'foo' into bar extra text` is retained by `getCommits`, but
the source pattern `^Merge branch '\S+' into \S+` has no end anchor, so
this message matches and the commit is excluded (the result is empty, not
`["u2"]`). -/
theorem getCommits_extended_merge_message_excluded :
    mergeCommitTest "Merge branch 'foo' into bar extra text" = true ∧
    getCommits [⟨"Merge branch 'foo' into bar extra text", "u2"⟩] = [] ∧
    ([] : List String) ≠ ["u2"] := by
  refine ⟨by decide, by decide, by decide⟩

/-- C1 amended: `getCommits` excludes a commit whose message is exactly
`Merge branch 'foo' into bar` and also one whose message extends it with
trailing text — the pattern is anchored at the start only — while a
message that merely contains the synthetic form after other text, and an
ordinary message, are retained, in order. -/
theorem getCommits_merge_filter_start_anchored :
    ∀ u1 u2 u3 u4 : String,
    getCommits
      [⟨"Merge branch 'foo' into bar", u1⟩,
       ⟨"Merge branch 'foo' into bar extra text", u2⟩,
       ⟨"x Merge branch 'foo' into bar", u3⟩,
       ⟨"Fix overflow in parser", u4⟩] = [u3, u4] := by
  intro u1 u2 u3 u4
  rfl

/-! ### C2: effects of the failure-comment builder -/

/-- C2 counterexample: building the failure comment for a one-commit list
performs a platform request (`github.request` inside `apiToPatchUrl`), so
it is not free of network calls. -/
theorem getFailedBackportCommentBody_performs_requests :
    (getFailedBackportCommentBody envAllOk "b" "h" "boom" ["u"]).1 =
      [Effect.request "u"] ∧
    ([Effect.request "u"] : List Effect) ≠ [] := by
  exact ⟨rfl, by decide⟩

/-- C2 amended: building the failure comment performs exactly one platform
request per commit, in commit order, and nothing else; and the resulting
body is a function only of base, head, error message, the per-commit
`html_url` responses, and the actions run context — any environment
agreeing on those produces the same body. -/
theorem getFailedBackportCommentBody_effects (env : Env)
    (base head errMsg : String) (commits : List String) :
    (getFailedBackportCommentBody env base head errMsg commits).1 =
      commits.map Effect.request ∧
    (∀ env' : Env, (∀ u ∈ commits, env'.htmlUrl u = env.htmlUrl u) →
      env'.ctxOwner = env.ctxOwner → env'.ctxRepo = env.ctxRepo →
      env'.ctxRunId = env.ctxRunId →
      (getFailedBackportCommentBody env' base head errMsg commits).2 =
        (getFailedBackportCommentBody env base head errMsg commits).2) := by
  refine ⟨rfl, ?_⟩
  intro env' hh ho hr hi
  simp only [getFailedBackportCommentBody, runUrlOf, ho, hr, hi]
  have : commits.map (fun u => commitCommand (env'.htmlUrl u)) =
      commits.map (fun u => commitCommand (env.htmlUrl u)) :=
    List.map_congr_left (fun u hu => by rw [hh u hu])
  rw [this]

/-- Witness for the amended C2: two environments that differ in their git
behaviour but agree on the responses produce the same comment body for a
concrete input. -/
theorem getFailedBackportCommentBody_effects_witness :
    (getFailedBackportCommentBody envAllOk "b" "h" "m" ["u"]).1 =
      ["u"].map Effect.request ∧
    (getFailedBackportCommentBody envAllOkGitFail "b" "h" "m" ["u"]).2 =
      (getFailedBackportCommentBody envAllOk "b" "h" "m" ["u"]).2 := by
  refine ⟨(getFailedBackportCommentBody_effects envAllOk "b" "h" "m" ["u"]).1, ?_⟩
  exact (getFailedBackportCommentBody_effects envAllOk "b" "h" "m" ["u"]).2
    envAllOkGitFail (fun u _ => rfl) rfl rfl rfl

/-! ### C8: the no-op paths -/

/-- C8: if the pull request is not merged, or no label matches the
backport pattern, `backport` returns successfully with an empty effect
trace — no git command, no platform call. -/
theorem backport_noop (env : Env) (r : RunParams)
    (h : r.merged = false ∨
      getBackportBaseToHead r.action r.label r.labels r.pullRequestNumber = []) :
    backport env r = ([], Except.ok ()) := by
  unfold backport
  rcases h with h | h
  · simp [h]
  · by_cases hm : r.merged = false
    · simp [hm]
    · simp [hm, h]

/-- Witness for C8 at a concrete unmerged payload. -/
theorem backport_noop_witness :
    rUnmerged.merged = false ∧ backport envAllOk rUnmerged = ([], Except.ok ()) :=
  ⟨rfl, backport_noop envAllOk rUnmerged (Or.inl rfl)⟩

/-! ### C6: the tag parser -/

theorem any_key_iff (m : List (String × String)) (k : String) :
    m.any (fun p => p.1 = k) = true ↔ ∃ p ∈ m, p.1 = k := by
  simp [List.any_eq_true]

theorem assocLookup_append (m m' : List (String × String)) (b : String) :
    assocLookup (m ++ m') b =
      match assocLookup m b with
      | some v => some v
      | none => assocLookup m' b := by
  induction m with
  | nil => simp [assocLookup]
  | cons p ps ih =>
    by_cases h : p.1 = b
    · simp [assocLookup, h]
    · simp [assocLookup, h, ih]

theorem assocLookup_no_key (m : List (String × String)) (k : String)
    (h : ¬∃ p ∈ m, p.1 = k) : assocLookup m k = none := by
  induction m with
  | nil => rfl
  | cons q qs ih =>
    have hq : ¬(q.1 = k) := fun hc => h ⟨q, List.mem_cons_self q qs, hc⟩
    have hqs : ¬∃ p ∈ qs, p.1 = k := fun ⟨p, hp, hc⟩ =>
      h ⟨p, List.mem_cons_of_mem q hp, hc⟩
    simp [assocLookup, hq, ih hqs]

theorem assocLookup_map_update (m : List (String × String)) (k v b : String) :
    assocLookup (m.map (fun p => if p.1 = k then (k, v) else p)) b =
      if b = k then (if ∃ p ∈ m, p.1 = k then some v else none)
      else assocLookup m b := by
  induction m with
  | nil => simp [assocLookup]
  | cons p ps ih =>
    by_cases hpk : p.1 = k
    · by_cases hbk : b = k
      · subst hbk
        have hex : ∃ q ∈ p :: ps, q.1 = b := ⟨p, List.mem_cons_self p ps, hpk⟩
        rw [if_pos rfl, if_pos hex]
        simp only [List.map_cons, if_pos hpk]
        simp [assocLookup]
      · have hkb : ¬(k = b) := fun hc => hbk hc.symm
        have hpb : ¬(p.1 = b) := fun hc => hkb (hpk.symm.trans hc)
        simp only [List.map_cons, if_pos hpk, assocLookup, if_neg hkb,
          if_neg hbk, if_neg hpb]
        rw [ih, if_neg hbk]
    · have hLHS : (p :: ps).map (fun p => if p.1 = k then (k, v) else p) =
          p :: ps.map (fun p => if p.1 = k then (k, v) else p) := by
        simp [hpk]
      rw [hLHS]
      by_cases hpb : p.1 = b
      · have hbk : ¬(b = k) := fun hc => hpk (hpb.trans hc)
        simp [assocLookup, hpb, hbk]
      · have hiff : (∃ q ∈ p :: ps, q.1 = k) ↔ (∃ q ∈ ps, q.1 = k) := by
          simp [hpk]
        simp only [assocLookup, if_neg hpb, ih]
        exact if_congr Iff.rfl (if_congr hiff.symm rfl rfl) rfl

theorem any_key_eq_false (m : List (String × String)) (k : String)
    (h : ¬∃ p ∈ m, p.1 = k) : m.any (fun p => p.1 = k) = false :=
  Bool.eq_false_iff.mpr (fun ht => h ((any_key_iff m k).mp ht))

theorem assocLookup_objInsert (m : List (String × String)) (k v b : String) :
    assocLookup (objInsert m k v) b =
      if b = k then some v else assocLookup m b := by
  unfold objInsert
  by_cases h : ∃ p ∈ m, p.1 = k
  · rw [if_pos ((any_key_iff m k).mpr h), assocLookup_map_update]
    simp [h]
  · rw [if_neg (by simp [any_key_eq_false m k h]), assocLookup_append]
    by_cases hbk : b = k
    · subst hbk
      rw [assocLookup_no_key m b h]
      simp [assocLookup]
    · have hkb : ¬(k = b) := fun hc => hbk hc.symm
      cases hm : assocLookup m b with
      | some v' => simp [hbk]
      | none => simp [assocLookup, hbk, hkb]

theorem map_update_keys (m : List (String × String)) (k v : String) :
    (m.map (fun p => if p.1 = k then (k, v) else p)).map Prod.fst =
      m.map Prod.fst := by
  induction m with
  | nil => rfl
  | cons p ps ih =>
    by_cases hpk : p.1 = k
    · simp [hpk, ih]
    · simp [hpk, ih]

theorem objInsert_keys (m : List (String × String)) (k v : String) :
    (objInsert m k v).map Prod.fst =
      if ∃ p ∈ m, p.1 = k then m.map Prod.fst
      else m.map Prod.fst ++ [k] := by
  unfold objInsert
  by_cases h : ∃ p ∈ m, p.1 = k
  · rw [if_pos ((any_key_iff m k).mpr h), if_pos h, map_update_keys]
  · rw [if_neg (by simp [any_key_eq_false m k h]), if_neg h]
    simp

theorem objInsert_keys_nodup (m : List (String × String)) (k v : String)
    (h : (m.map Prod.fst).Nodup) :
    ((objInsert m k v).map Prod.fst).Nodup := by
  rw [objInsert_keys]
  by_cases hk : ∃ p ∈ m, p.1 = k
  · simpa [hk] using h
  · rw [if_neg hk]
    refine List.Nodup.append h (List.nodup_singleton k) ?_
    intro a hma hsg
    simp only [List.mem_singleton] at hsg
    subst hsg
    rcases List.mem_map.mp hma with ⟨p, hp, hfst⟩
    exact hk ⟨p, hp, hfst⟩

theorem foldl_objInsert_lookup (entries : List (String × String))
    (m : List (String × String)) (b : String) :
    assocLookup (entries.foldl (fun acc p => objInsert acc p.1 p.2) m) b =
      entries.foldl (fun acc p => if p.1 = b then some p.2 else acc)
        (assocLookup m b) := by
  induction entries generalizing m with
  | nil => rfl
  | cons p ps ih =>
    simp only [List.foldl_cons]
    rw [ih, assocLookup_objInsert]
    by_cases h : p.1 = b
    · have hs : b = p.1 := h.symm
      rw [if_pos hs, if_pos h]
    · have hs : ¬(b = p.1) := fun hc => h hc.symm
      rw [if_neg hs, if_neg h]

theorem foldl_objInsert_keys_nodup (entries : List (String × String))
    (m : List (String × String)) (h : (m.map Prod.fst).Nodup) :
    ((entries.foldl (fun acc p => objInsert acc p.1 p.2) m).map Prod.fst).Nodup := by
  induction entries generalizing m with
  | nil => exact h
  | cons p ps ih => exact ih _ (objInsert_keys_nodup m p.1 p.2 h)

theorem foldl_lastMatch_eq_none (entries : List (String × String))
    (b : String) (acc : Option String) :
    (entries.foldl (fun acc p => if p.1 = b then some p.2 else acc) acc = none) ↔
      (acc = none ∧ ∀ p ∈ entries, p.1 ≠ b) := by
  induction entries generalizing acc with
  | nil => simp
  | cons p ps ih =>
    by_cases h : p.1 = b
    · simp [List.foldl_cons, h, ih]
    · simp [List.foldl_cons, h, ih]

theorem assocLookup_eq_none_iff (m : List (String × String)) (b : String) :
    assocLookup m b = none ↔ b ∉ m.map Prod.fst := by
  induction m with
  | nil => simp [assocLookup]
  | cons p ps ih =>
    by_cases h : p.1 = b
    · simp [assocLookup, h]
    · have hs : ¬(b = p.1) := fun hc => h hc.symm
      simp [assocLookup, h, ih, hs]

theorem foldl_parse_filterMap (n : Nat) (names : List String)
    (acc : List (String × String)) :
    names.foldl
      (fun m name =>
        match parseBackportLabel name with
        | none => m
        | some (base, headOpt) =>
            objInsert m base (headOpt.getD (defaultHead n base))) acc =
      (names.filterMap (fun s =>
        (parseBackportLabel s).map
          (fun ph => (ph.1, ph.2.getD (defaultHead n ph.1))))).foldl
        (fun m p => objInsert m p.1 p.2) acc := by
  induction names generalizing acc with
  | nil => rfl
  | cons name rest ih =>
    cases h : parseBackportLabel name with
    | none => simp [List.foldl_cons, List.filterMap_cons, h, ih]
    | some ph =>
      cases ph with
      | mk base headOpt => simp [List.foldl_cons, List.filterMap_cons, h, ih]

theorem getBackportBaseToHead_eq_fold (action label : String)
    (labels : List String) (n : Nat) :
    getBackportBaseToHead action label labels n =
      (matchedEntriesSpec action label labels n).foldl
        (fun m p => objInsert m p.1 p.2) [] := by
  unfold getBackportBaseToHead matchedEntriesSpec
  exact foldl_parse_filterMap n (getLabelNames action label labels) []

/-- C6: the tag parser returns a mapping with pairwise-distinct bases; the
value looked up at any base `b` is the last matching label's head (the
second capture when present, else `backport-<n>-to-<b>`), later matches
silently overwriting earlier ones and non-matching labels contributing
nothing; a base is a key exactly when some matching label names it; and
the mapping is empty when the action is neither `closed` nor `labeled`. -/
theorem getBackportBaseToHead_characterization (action label : String)
    (labels : List String) (n : Nat) :
    ((getBackportBaseToHead action label labels n).map Prod.fst).Nodup ∧
    (∀ b, assocLookup (getBackportBaseToHead action label labels n) b =
      (matchedEntriesSpec action label labels n).foldl
        (fun acc p => if p.1 = b then some p.2 else acc) none) ∧
    (∀ b, b ∈ (getBackportBaseToHead action label labels n).map Prod.fst ↔
      ∃ p ∈ matchedEntriesSpec action label labels n, p.1 = b) ∧
    (action ≠ "closed" → action ≠ "labeled" →
      getBackportBaseToHead action label labels n = []) := by
  refine ⟨?_, ?_, ?_, ?_⟩
  · rw [getBackportBaseToHead_eq_fold]
    exact foldl_objInsert_keys_nodup _ [] (by simp)
  · intro b
    rw [getBackportBaseToHead_eq_fold, foldl_objInsert_lookup]
    rfl
  · intro b
    have hlk : assocLookup (getBackportBaseToHead action label labels n) b =
        (matchedEntriesSpec action label labels n).foldl
          (fun acc p => if p.1 = b then some p.2 else acc) none := by
      rw [getBackportBaseToHead_eq_fold, foldl_objInsert_lookup]; rfl
    constructor
    · intro hmem
      by_contra hno
      have : ∀ p ∈ matchedEntriesSpec action label labels n, p.1 ≠ b := by
        intro p hp hc; exact hno ⟨p, hp, hc⟩
      have : assocLookup (getBackportBaseToHead action label labels n) b = none := by
        rw [hlk, foldl_lastMatch_eq_none]; exact ⟨rfl, this⟩
      exact (assocLookup_eq_none_iff _ b).mp this hmem
    · intro ⟨p, hp, hpb⟩
      by_contra hmem
      have hnone : assocLookup (getBackportBaseToHead action label labels n) b = none :=
        (assocLookup_eq_none_iff _ b).mpr hmem
      rw [hlk, foldl_lastMatch_eq_none] at hnone
      exact hnone.2 p hp hpb
  · intro h1 h2
    unfold getBackportBaseToHead getLabelNames
    simp [h1, h2]

/-- Witness for C6: the spec's own example (`id=42`,
label `backport release-3`), and a non-supported action. -/
theorem getBackportBaseToHead_characterization_witness :
    assocLookup (getBackportBaseToHead "labeled" "backport release-3" [] 42)
      "release-3" = some "backport-42-to-release-3" ∧
    getBackportBaseToHead "opened" "backport x" ["backport x"] 1 = [] := by
  constructor
  · have h := (getBackportBaseToHead_characterization "labeled"
      "backport release-3" [] 42).2.1 "release-3"
    rw [h]; decide
  · exact (getBackportBaseToHead_characterization "opened" "backport x"
      ["backport x"] 1).2.2.2 (by decide) (by decide)

end Backport

namespace Backport

theorem pMapFill_length (f : α → β) (xs : List α) (order : List Nat)
    (acc : List (Option β)) :
    (pMapFill f xs order acc).length = acc.length := by
  induction order generalizing acc with
  | nil => rfl
  | cons i rest ih =>
    simp only [pMapFill]
    cases h : xs[i]? with
    | none => simp [ih]
    | some x => simp [ih, List.length_set]

theorem pMapFill_getElem? (f : α → β) (xs : List α) (order : List Nat)
    (acc : List (Option β)) (hlen : xs.length ≤ acc.length) (j : Nat) :
    (pMapFill f xs order acc)[j]? =
      if j ∈ order ∧ j < xs.length then (xs[j]?).map (fun x => some (f x))
      else acc[j]? := by
  induction order generalizing acc with
  | nil => simp [pMapFill]
  | cons i rest ih =>
    simp only [pMapFill]
    cases hx : xs[i]? with
    | none =>
      have hi : xs.length ≤ i := List.getElem?_eq_none_iff.mp hx
      rw [ih acc hlen]
      by_cases hj : j ∈ rest ∧ j < xs.length
      · rw [if_pos hj, if_pos ⟨List.mem_cons_of_mem i hj.1, hj.2⟩]
      · have hj2 : ¬(j ∈ i :: rest ∧ j < xs.length) := by
          rintro ⟨hm, hlt⟩
          rcases List.mem_cons.mp hm with h | h
          · subst h; omega
          · exact hj ⟨h, hlt⟩
        rw [if_neg hj, if_neg hj2]
    | some x =>
      have hi : i < xs.length := by
        by_contra h
        rw [List.getElem?_eq_none (le_of_not_lt h)] at hx
        cases hx
      rw [ih _ (by simpa [List.length_set] using hlen)]
      by_cases hj : j ∈ rest ∧ j < xs.length
      · rw [if_pos hj, if_pos ⟨List.mem_cons_of_mem i hj.1, hj.2⟩]
      · by_cases hij : j = i
        · subst hij
          rw [if_neg hj, if_pos ⟨List.mem_cons_self j rest, hi⟩]
          rw [List.getElem?_set_eq_of_lt _ (lt_of_lt_of_le hi hlen), hx]
          rfl
        · have hj2 : ¬(j ∈ i :: rest ∧ j < xs.length) := by
            rintro ⟨hm, hlt⟩
            rcases List.mem_cons.mp hm with h | h
            · exact hij h
            · exact hj ⟨h, hlt⟩
          rw [if_neg hj, if_neg hj2]
          exact List.getElem?_set_ne (fun hc => hij hc.symm)

theorem pMapRun_of_perm (f : α → β) (xs : List α) (order : List Nat)
    (hperm : order.Perm (List.range xs.length)) :
    pMapRun f xs order = xs.map (fun x => some (f x)) := by
  apply List.ext_getElem?
  intro j
  rw [pMapRun, pMapFill_getElem? f xs order _ (by simp) j]
  by_cases hj : j < xs.length
  · have hmem : j ∈ order := hperm.mem_iff.mpr (List.mem_range.mpr hj)
    rw [if_pos ⟨hmem, hj⟩, List.getElem?_map]
  · have hle : xs.length ≤ j := le_of_not_lt hj
    rw [if_neg (fun hc => hj hc.2), List.getElem?_replicate]
    rw [List.getElem?_eq_none (by simpa using hle)]
    rw [if_neg (by omega)]

theorem pMapResult_of_perm (f : α → β) (xs : List α) (order : List Nat)
    (hperm : order.Perm (List.range xs.length)) :
    pMapResult f xs order = some (xs.map f) := by
  rw [pMapResult]
  rw [pMapRun_of_perm f xs order hperm]
  have hall : (xs.map (fun x => some (f x))).all Option.isSome = true := by
    simp [List.all_eq_true]
  rw [if_pos hall]
  congr 1
  rw [List.filterMap_map]
  exact List.filterMap_eq_map f ▸ rfl

theorem emit_scratch (e : Effect) (s : St) : (emit e s).scratch = s.scratch := rfl

theorem runGit_ok (env : Env) (args : List String) (s : St)
    (h : env.gitOk args = true) :
    runGit env args s = (emit (Effect.git args) s, Except.ok ()) := by
  simp [runGit, h]

theorem runGit_err (env : Env) (args : List String) (s : St)
    (h : env.gitOk args = false) :
    runGit env args s = (emit (Effect.git args) s,
      Except.error (BError.gitFailed args)) := by
  simp [runGit, h]

theorem writesOf_append (a b : List Effect) :
    writesOf (a ++ b) = writesOf a ++ writesOf b := by
  simp [writesOf, List.filterMap_append]

theorem writesOf_requests (us : List String) :
    writesOf (us.map Effect.request) = [] := by
  induction us with
  | nil => rfl
  | cons u us ih => simp [writesOf, List.filterMap_cons, ih]

theorem writesOf_applySeq (repo : String) (ps : List String) :
    writesOf (applySeq repo ps) = ps := by
  induction ps with
  | nil => rfl
  | cons q rest ih => simpa [applySeq, writesOf, List.filterMap_cons] using ih

theorem applyLoop_all_ok (env : Env) (p : OnceParams) (s : St)
    (ps : List String) (hs : s.scratch = false)
    (h : ∀ q ∈ ps, env.amOk p.base q = true) :
    applyLoop env p s ps =
      ({ trace := s.trace ++ applySeq p.repo ps, scratch := false },
        Except.ok ()) := by
  induction ps generalizing s with
  | nil =>
    cases s with
    | mk t sc =>
      simp only [St.mk.injEq] at *
      simp [applyLoop, applySeq, hs]
  | cons q rest ih =>
    have hq : env.amOk p.base q = true := h q (List.mem_cons_self q rest)
    have hrest : ∀ x ∈ rest, env.amOk p.base x = true :=
      fun x hx => h x (List.mem_cons_of_mem q hx)
    simp only [applyLoop, runAm, fsWrite, emit, hq, if_pos]
    rw [ih _ rfl hrest]
    simp [fsUnlink, applySeq, List.append_assoc]

theorem applyLoop_fail (env : Env) (p : OnceParams) (s : St)
    (ps1 ps2 : List String) (q : String) (hs : s.scratch = false)
    (hok : ∀ x ∈ ps1, env.amOk p.base x = true)
    (hq : env.amOk p.base q = false) :
    applyLoop env p s (ps1 ++ q :: ps2) =
      ({ trace := s.trace ++ applySeq p.repo ps1 ++
          [Effect.writeFile (patchFile p.repo) q, Effect.git (amApplyArgs p.repo)],
         scratch := true },
        Except.error (BError.gitFailed (amApplyArgs p.repo))) := by
  induction ps1 generalizing s with
  | nil =>
    simp only [List.nil_append, applyLoop, runAm, fsWrite, emit, hq]
    simp [applySeq, List.append_assoc]
  | cons x rest ih =>
    have hx : env.amOk p.base x = true := hok x (List.mem_cons_self x rest)
    have hrest : ∀ y ∈ rest, env.amOk p.base y = true :=
      fun y hy => hok y (List.mem_cons_of_mem x hy)
    rw [List.cons_append]
    simp only [applyLoop, runAm, fsWrite, emit, hx, if_pos]
    rw [ih _ rfl hrest]
    simp [fsUnlink, applySeq, List.append_assoc]

theorem applyLoop_ok_scratch (env : Env) (p : OnceParams) (s : St)
    (ps : List String) (hs : s.scratch = false)
    (h : (applyLoop env p s ps).2 = Except.ok ()) :
    (applyLoop env p s ps).1.scratch = false := by
  induction ps generalizing s with
  | nil => simpa [applyLoop] using hs
  | cons q rest ih =>
    simp only [applyLoop, runAm, fsWrite, emit] at h ⊢
    cases hq : env.amOk p.base q with
    | true => simp only [hq, if_pos] at h ⊢; exact ih _ rfl h
    | false => simp [hq] at h

theorem applyLoop_err (env : Env) (p : OnceParams) (s : St)
    (ps : List String) (e : BError) (hs : s.scratch = false)
    (h : (applyLoop env p s ps).2 = Except.error e) :
    e = BError.gitFailed (amApplyArgs p.repo) ∧
      (applyLoop env p s ps).1.scratch = true := by
  induction ps generalizing s with
  | nil => simp [applyLoop] at h
  | cons q rest ih =>
    simp only [applyLoop, runAm, fsWrite, emit] at h ⊢
    cases hq : env.amOk p.base q with
    | true => simp only [hq, if_pos] at h ⊢; exact ih _ rfl h
    | false =>
      simp only [hq] at h
      simp only [Bool.false_eq_true, if_false] at h
      have he : e = BError.gitFailed (amApplyArgs p.repo) := by
        simpa using h.symm
      subst he
      simp [hq]

end Backport

namespace Backport

theorem runAm_ok (env : Env) (p : OnceParams) (patch : String) (s : St)
    (h : env.amOk p.base patch = true) :
    runAm env p patch s =
      (emit (Effect.git (amApplyArgs p.repo)) s, Except.ok ()) := by
  simp [runAm, h]

theorem runAm_err (env : Env) (p : OnceParams) (patch : String) (s : St)
    (h : env.amOk p.base patch = false) :
    runAm env p patch s =
      (emit (Effect.git (amApplyArgs p.repo)) s,
        Except.error (BError.gitFailed (amApplyArgs p.repo))) := by
  simp [runAm, h]

theorem applyLoop_writes (env : Env) (p : OnceParams) (s : St)
    (ps : List String) :
    ∃ k, writesOf (applyLoop env p s ps).1.trace =
      writesOf s.trace ++ ps.take k := by
  induction ps generalizing s with
  | nil => exact ⟨0, by simp [applyLoop]⟩
  | cons q rest ih =>
    cases hq : env.amOk p.base q with
    | true =>
      have hstep : applyLoop env p s (q :: rest) =
          applyLoop env p (fsUnlink (patchFile p.repo)
            (emit (Effect.git (amApplyArgs p.repo))
              (fsWrite (patchFile p.repo) q s))) rest := by
        simp only [applyLoop]
        rw [runAm_ok _ _ _ _ hq]
      rw [hstep]
      obtain ⟨k, hk⟩ := ih (fsUnlink (patchFile p.repo)
        (emit (Effect.git (amApplyArgs p.repo)) (fsWrite (patchFile p.repo) q s)))
      refine ⟨k + 1, ?_⟩
      rw [hk]
      simp [fsUnlink, emit, fsWrite, writesOf, List.filterMap_append,
        List.take_succ_cons, List.append_assoc]
    | false =>
      have hstep : applyLoop env p s (q :: rest) =
          (emit (Effect.git (amApplyArgs p.repo))
            (fsWrite (patchFile p.repo) q s),
            Except.error (BError.gitFailed (amApplyArgs p.repo))) := by
        simp only [applyLoop]
        rw [runAm_err _ _ _ _ hq]
      rw [hstep]
      refine ⟨1, ?_⟩
      simp [emit, fsWrite, writesOf, List.filterMap_append, List.take_succ_cons]

end Backport

namespace Backport

theorem writesOf_git (args : List String) : writesOf [Effect.git args] = [] := rfl

theorem tryBody_props (env : Env) (p : OnceParams) (patches : List String)
    (s : St) (hs : s.scratch = false) :
    ((tryBody env p patches s).2 = Except.ok () →
        (tryBody env p patches s).1.scratch = false ∧
        ∃ pre, (tryBody env p patches s).1.trace =
          pre ++ [Effect.createPull p.base (p.botUsername ++ ":" ++ p.head)
            p.title p.body]) ∧
    ((tryBody env p patches s).2 =
        Except.error (BError.gitFailed (amApplyArgs p.repo)) →
        (tryBody env p patches s).1.scratch = true) ∧
    (∃ k, writesOf (tryBody env p patches s).1.trace =
      writesOf s.trace ++ patches.take k) := by
  unfold tryBody
  cases h1 : env.gitOk ["fetch", "origin"] with
  | false =>
    simp only [runGit, h1, emit, Bool.false_eq_true, if_false]
    refine ⟨fun h => by simp at h, fun h => by simp [amApplyArgs] at h,
      ⟨0, by simp [writesOf, List.filterMap_append]⟩⟩
  | true =>
  simp only [runGit, h1, if_true]
  cases h2 : env.gitOk ["checkout", "origin/" ++ p.base] with
  | false =>
    simp only [h2, Bool.false_eq_true, if_false]
    refine ⟨fun h => by simp at h, fun h => by simp [amApplyArgs] at h,
      ⟨0, by simp [emit, writesOf, List.filterMap_append]⟩⟩
  | true =>
  simp only [h2, if_true]
  cases h3 : env.gitOk ["checkout", "-b", p.head] with
  | false =>
    simp only [h3, Bool.false_eq_true, if_false]
    refine ⟨fun h => by simp at h, fun h => by simp [amApplyArgs] at h,
      ⟨0, by simp [emit, writesOf, List.filterMap_append]⟩⟩
  | true =>
  simp only [h3, if_true]
  have hs3 : (emit (Effect.git ["checkout", "-b", p.head])
      (emit (Effect.git ["checkout", "origin/" ++ p.base])
        (emit (Effect.git ["fetch", "origin"]) s))).scratch = false := hs
  cases hal : applyLoop env p (emit (Effect.git ["checkout", "-b", p.head])
      (emit (Effect.git ["checkout", "origin/" ++ p.base])
        (emit (Effect.git ["fetch", "origin"]) s))) patches with
  | mk s4 r4 =>
  have hwr : ∃ k, writesOf s4.trace = writesOf s.trace ++ patches.take k := by
    obtain ⟨k, hk⟩ := applyLoop_writes env p (emit (Effect.git ["checkout", "-b", p.head])
      (emit (Effect.git ["checkout", "origin/" ++ p.base])
        (emit (Effect.git ["fetch", "origin"]) s))) patches
    rw [hal] at hk
    refine ⟨k, ?_⟩
    rw [hk]
    simp [emit, writesOf, List.filterMap_append]
  cases r4 with
  | error e4 =>
    have herr := applyLoop_err env p _ patches e4 hs3 (by rw [hal])
    rw [hal] at herr
    exact ⟨fun h => by simp at h, fun h => herr.2, hwr⟩
  | ok u4 =>
    cases u4
    have hokScratch := applyLoop_ok_scratch env p _ patches hs3 (by rw [hal])
    rw [hal] at hokScratch
    cases h5 : env.gitOk ["push", "botrepo", p.head] with
    | false =>
      simp only [runGit, h5, Bool.false_eq_true, if_false]
      refine ⟨fun h => by simp at h, fun h => by simp [amApplyArgs] at h, ?_⟩
      obtain ⟨k, hk⟩ := hwr
      refine ⟨k, ?_⟩
      rw [← hk]
      simp [emit, writesOf, List.filterMap_append]
    | true =>
      simp only [runGit, h5, if_true]
      cases h6 : env.createOk with
      | false =>
        simp only [h6, Bool.false_eq_true, if_false]
        refine ⟨fun h => by simp at h, fun h => by simp at h, ?_⟩
        obtain ⟨k, hk⟩ := hwr
        refine ⟨k, ?_⟩
        rw [← hk]
        simp [emit, writesOf, List.filterMap_append]
      | true =>
        simp only [h6, if_true]
        refine ⟨fun _ => ⟨hokScratch, ?_⟩, fun h => by simp at h, ?_⟩
        · refine ⟨(emit (Effect.git ["push", "botrepo", p.head]) s4).trace, ?_⟩
          simp [emit, List.append_assoc]
        · obtain ⟨k, hk⟩ := hwr
          refine ⟨k, ?_⟩
          rw [← hk]
          simp [emit, writesOf, List.filterMap_append]

end Backport

namespace Backport

theorem writesOf_abort : writesOf [Effect.git amAbortArgs] = [] := rfl

theorem backportOnce_of_tryBody_err (env : Env) (p : OnceParams) (s1 : St)
    (e : BError)
    (h : tryBody env p (p.commits.map env.request) (initOnceSt p) =
      (s1, Except.error e)) :
    (backportOnce env p).1.trace = s1.trace ++ [Effect.git amAbortArgs] ∧
    (backportOnce env p).1.scratch = s1.scratch ∧
    (backportOnce env p).2 = Except.error
      (if env.gitOk amAbortArgs then e else BError.gitFailed amAbortArgs) := by
  simp only [backportOnce]
  rw [h]
  cases habort : env.gitOk amAbortArgs with
  | true => simp [runGit, habort, emit]
  | false => simp [runGit, habort, emit]

theorem backportOnce_of_tryBody_ok (env : Env) (p : OnceParams) (s1 : St)
    (h : tryBody env p (p.commits.map env.request) (initOnceSt p) =
      (s1, Except.ok ())) :
    backportOnce env p = (s1, Except.ok ()) := by
  simp only [backportOnce]
  rw [h]

theorem backportOnce_props (env : Env) (p : OnceParams) :
    ((backportOnce env p).2 = Except.ok () →
        (backportOnce env p).1.scratch = false ∧
        Effect.createPull p.base (p.botUsername ++ ":" ++ p.head) p.title p.body ∈
          (backportOnce env p).1.trace) ∧
    ((backportOnce env p).2 =
        Except.error (BError.gitFailed (amApplyArgs p.repo)) →
        (backportOnce env p).1.scratch = true) ∧
    (∃ k, writesOf (backportOnce env p).1.trace =
      (p.commits.map env.request).take k) := by
  have hprops := tryBody_props env p (p.commits.map env.request) (initOnceSt p) rfl
  cases htb : tryBody env p (p.commits.map env.request) (initOnceSt p) with
  | mk s1 r1 =>
  rw [htb] at hprops
  cases r1 with
  | ok u1 =>
    cases u1
    rw [backportOnce_of_tryBody_ok env p s1 htb]
    obtain ⟨hone, _, hwr⟩ := hprops
    obtain ⟨hscr, pre, hpre⟩ := hone rfl
    refine ⟨fun _ => ⟨hscr, ?_⟩, fun h => by simp at h, ?_⟩
    · rw [hpre]; simp
    · obtain ⟨k, hk⟩ := hwr
      exact ⟨k, by simpa [initOnceSt, writesOf_requests] using hk⟩
  | error e1 =>
    obtain ⟨htr, hscr, hres⟩ := backportOnce_of_tryBody_err env p s1 e1 htb
    refine ⟨fun h => ?_, fun h => ?_, ?_⟩
    · rw [hres] at h; simp at h
    · rw [hres] at h
      cases habort : env.gitOk amAbortArgs with
      | true =>
        rw [if_pos habort] at h
        simp only [Except.error.injEq] at h
        subst h
        rw [hscr]
        exact hprops.2.1 rfl
      | false =>
        rw [if_neg (by simp [habort])] at h
        simp [amAbortArgs, amApplyArgs] at h
    · obtain ⟨k, hk⟩ := hprops.2.2
      refine ⟨k, ?_⟩
      rw [htr, writesOf_append, writesOf_abort, List.append_nil, hk]
      simp [initOnceSt, writesOf_requests]

theorem git_mem_applySeq_iff (repo : String) (ps : List String)
    (args : List String) :
    Effect.git args ∈ applySeq repo ps ↔ (args = amApplyArgs repo ∧ ps ≠ []) := by
  induction ps with
  | nil => simp [applySeq]
  | cons q rest ih => simp [applySeq, ih]; tauto

theorem createPull_not_mem_applySeq (repo : String) (ps : List String)
    (b h t bd : String) :
    Effect.createPull b h t bd ∉ applySeq repo ps := by
  induction ps with
  | nil => simp [applySeq]
  | cons q rest ih => simp [applySeq, ih]

end Backport

namespace Backport

theorem tryBody_apply_failure (env : Env) (p : OnceParams)
    (ps1 ps2 : List String) (q : String)
    (hsplit : p.commits.map env.request = ps1 ++ q :: ps2)
    (h1 : env.gitOk ["fetch", "origin"] = true)
    (h2 : env.gitOk ["checkout", "origin/" ++ p.base] = true)
    (h3 : env.gitOk ["checkout", "-b", p.head] = true)
    (hok : ∀ x ∈ ps1, env.amOk p.base x = true)
    (hq : env.amOk p.base q = false) :
    tryBody env p (p.commits.map env.request) (initOnceSt p) =
      ({ trace := p.commits.map Effect.request ++
          [Effect.git ["fetch", "origin"],
           Effect.git ["checkout", "origin/" ++ p.base],
           Effect.git ["checkout", "-b", p.head]] ++
          applySeq p.repo ps1 ++
          [Effect.writeFile (patchFile p.repo) q,
           Effect.git (amApplyArgs p.repo)],
         scratch := true },
        Except.error (BError.gitFailed (amApplyArgs p.repo))) := by
  unfold tryBody
  simp only [runGit, h1, h2, h3, if_true]
  rw [hsplit, applyLoop_fail env p _ ps1 ps2 q rfl hok hq]
  simp [emit, initOnceSt, List.append_assoc]

/-- C4: if three-way apply fails at position `i` (after `i` successful
applies), `backportOnce` fails with that error, attempts no later patch,
pushes nothing, opens no pull request, and ends with `git am --abort`. -/
theorem backportOnce_aborts_on_apply_failure (env : Env) (p : OnceParams)
    (ps1 ps2 : List String) (q : String)
    (hsplit : p.commits.map env.request = ps1 ++ q :: ps2)
    (h1 : env.gitOk ["fetch", "origin"] = true)
    (h2 : env.gitOk ["checkout", "origin/" ++ p.base] = true)
    (h3 : env.gitOk ["checkout", "-b", p.head] = true)
    (hok : ∀ x ∈ ps1, env.amOk p.base x = true)
    (hq : env.amOk p.base q = false)
    (habort : env.gitOk amAbortArgs = true) :
    (backportOnce env p).2 =
      Except.error (BError.gitFailed (amApplyArgs p.repo)) ∧
    writesOf (backportOnce env p).1.trace = ps1 ++ [q] ∧
    Effect.git ["push", "botrepo", p.head] ∉ (backportOnce env p).1.trace ∧
    (∀ b h t bd, Effect.createPull b h t bd ∉ (backportOnce env p).1.trace) ∧
    (backportOnce env p).1.trace =
      p.commits.map Effect.request ++
      [Effect.git ["fetch", "origin"],
       Effect.git ["checkout", "origin/" ++ p.base],
       Effect.git ["checkout", "-b", p.head]] ++
      applySeq p.repo ps1 ++
      [Effect.writeFile (patchFile p.repo) q, Effect.git (amApplyArgs p.repo)] ++
      [Effect.git amAbortArgs] := by
  have htb := tryBody_apply_failure env p ps1 ps2 q hsplit h1 h2 h3 hok hq
  obtain ⟨htr, hscr, hres⟩ := backportOnce_of_tryBody_err env p _ _ htb
  have htrace : (backportOnce env p).1.trace =
      p.commits.map Effect.request ++
      [Effect.git ["fetch", "origin"],
       Effect.git ["checkout", "origin/" ++ p.base],
       Effect.git ["checkout", "-b", p.head]] ++
      applySeq p.repo ps1 ++
      [Effect.writeFile (patchFile p.repo) q, Effect.git (amApplyArgs p.repo)] ++
      [Effect.git amAbortArgs] := by
    rw [htr]
  refine ⟨?_, ?_, ?_, ?_, htrace⟩
  · rw [hres, if_pos habort]
  · rw [htrace]
    simp only [writesOf_append, writesOf_requests, writesOf_applySeq, writesOf_abort]
    simp [writesOf, List.filterMap_cons]
  · rw [htrace]
    intro hmem
    simp only [List.mem_append, List.mem_cons, List.mem_map,
      List.not_mem_nil, List.mem_singleton, git_mem_applySeq_iff] at hmem
    rcases hmem with ((((⟨u, _, hc⟩ | hc) | ⟨hc, _⟩) | hc) | hc) <;>
      simp [amApplyArgs, amAbortArgs] at hc
  · rw [htrace]
    intro b h t bd hmem
    simp only [List.mem_append, List.mem_cons, List.mem_map,
      List.not_mem_nil, List.mem_singleton] at hmem
    rcases hmem with ((((⟨u, _, hc⟩ | hc) | hc) | hc) | hc)
    · simp at hc
    · rcases hc with hc | hc | hc <;> simp at hc
    · exact createPull_not_mem_applySeq p.repo ps1 b h t bd hc
    · rcases hc with hc | hc <;> simp at hc
    · simp at hc

end Backport

namespace Backport

/-- C3 counterexample: when the first apply fails, `backportOnce` throws
with the scratch file still on disk and no `fs.unlink` in the trace — the
claim that deletion happens on every exit path is false. -/
theorem backportOnce_scratch_file_remains :
    (backportOnce envAmFail pOnce).2 =
      Except.error (BError.gitFailed (amApplyArgs "repo")) ∧
    (backportOnce envAmFail pOnce).1.scratch = true ∧
    Effect.unlink (patchFile "repo") ∉ (backportOnce envAmFail pOnce).1.trace := by
  refine ⟨rfl, rfl, ?_⟩
  decide

/-- C3 amended: the scratch file is deleted after each successful apply,
so a successful `backportOnce` leaves no scratch file; but when the
routine fails because a three-way apply failed, the scratch file written
for the failing patch remains after the throw. -/
theorem backportOnce_scratch_characterization (env : Env) (p : OnceParams) :
    ((backportOnce env p).2 = Except.ok () →
      (backportOnce env p).1.scratch = false) ∧
    ((backportOnce env p).2 =
      Except.error (BError.gitFailed (amApplyArgs p.repo)) →
      (backportOnce env p).1.scratch = true) :=
  ⟨fun h => ((backportOnce_props env p).1 h).1,
   fun h => (backportOnce_props env p).2.1 h⟩

/-- Witness for the amended C3 at concrete environments: a fully
successful run ends without the scratch file; a run with a failing apply
ends with it. -/
theorem backportOnce_scratch_characterization_witness :
    ((backportOnce envAllOk pOnce).2 = Except.ok () ∧
      (backportOnce envAllOk pOnce).1.scratch = false) ∧
    ((backportOnce envAmFail pOnce).2 =
        Except.error (BError.gitFailed (amApplyArgs pOnce.repo)) ∧
      (backportOnce envAmFail pOnce).1.scratch = true) := by
  have h1 : (backportOnce envAllOk pOnce).2 = Except.ok () := rfl
  have h2 : (backportOnce envAmFail pOnce).2 =
      Except.error (BError.gitFailed (amApplyArgs pOnce.repo)) := rfl
  exact ⟨⟨h1, (backportOnce_scratch_characterization envAllOk pOnce).1 h1⟩,
    ⟨h2, (backportOnce_scratch_characterization envAmFail pOnce).2 h2⟩⟩

/-- C7: the p-map model returns results in input order for every
completion order (a permutation of the indices), and the patches
`backportOnce` writes for application are an in-order prefix of the
fetched patch list — application order equals commit order. -/
theorem backportOnce_patch_order (env : Env) (p : OnceParams)
    (order : List Nat) (hperm : order.Perm (List.range p.commits.length)) :
    pMapResult env.request p.commits order =
      some (p.commits.map env.request) ∧
    ∃ k, writesOf (backportOnce env p).1.trace =
      (p.commits.map env.request).take k :=
  ⟨pMapResult_of_perm _ _ _ hperm, (backportOnce_props env p).2.2⟩

/-- Witness for C7: three commits fetched in reverse completion order
still yield the patches in commit order. -/
theorem backportOnce_patch_order_witness :
    ([2, 1, 0] : List Nat).Perm (List.range pThree.commits.length) ∧
    (pMapResult envAllOk.request pThree.commits [2, 1, 0] =
        some (pThree.commits.map envAllOk.request) ∧
      ∃ k, writesOf (backportOnce envAllOk pThree).1.trace =
        (pThree.commits.map envAllOk.request).take k) :=
  ⟨by decide, backportOnce_patch_order envAllOk pThree [2, 1, 0] (by decide)⟩

/-- C10: whenever the body of `backportOnce`'s try block fails — at
fetch, checkout, apply, push or pull-request creation — the catch block
runs `git am --abort` before rethrowing; if the abort command succeeds
the original error propagates, and if it fails the abort failure is
raised in place of the original error. -/
theorem backportOnce_runs_abort_before_rethrow (env : Env) (p : OnceParams)
    (s1 : St) (e : BError)
    (h : tryBody env p (p.commits.map env.request) (initOnceSt p) =
      (s1, Except.error e)) :
    (backportOnce env p).1.trace = s1.trace ++ [Effect.git amAbortArgs] ∧
    (env.gitOk amAbortArgs = true →
      (backportOnce env p).2 = Except.error e) ∧
    (env.gitOk amAbortArgs = false →
      (backportOnce env p).2 = Except.error (BError.gitFailed amAbortArgs)) := by
  obtain ⟨htr, _, hres⟩ := backportOnce_of_tryBody_err env p s1 e h
  refine ⟨htr, fun hb => ?_, fun hb => ?_⟩
  · rw [hres, if_pos hb]
  · rw [hres, if_neg (by simp [hb])]

/-- Witness for C10: a failing push (no patch application in progress)
still triggers `git am --abort` before the rethrow. -/
theorem backportOnce_runs_abort_before_rethrow_witness :
    tryBody envPushFail pOnce (pOnce.commits.map envPushFail.request)
      (initOnceSt pOnce) =
      (stC10, Except.error (BError.gitFailed ["push", "botrepo", "h"])) ∧
    ((backportOnce envPushFail pOnce).1.trace =
        stC10.trace ++ [Effect.git amAbortArgs] ∧
      (envPushFail.gitOk amAbortArgs = true →
        (backportOnce envPushFail pOnce).2 =
          Except.error (BError.gitFailed ["push", "botrepo", "h"])) ∧
      (envPushFail.gitOk amAbortArgs = false →
        (backportOnce envPushFail pOnce).2 =
          Except.error (BError.gitFailed amAbortArgs))) :=
  ⟨rfl, backportOnce_runs_abort_before_rethrow envPushFail pOnce stC10
    (BError.gitFailed ["push", "botrepo", "h"]) rfl⟩

/-- Witness for C4 at a concrete two-commit run whose second patch fails
to apply: the first patch is attempted, the second's scratch write and
failing apply are recorded, and nothing is pushed or proposed. -/
theorem backportOnce_aborts_on_apply_failure_witness :
    (pTwoCommits.commits.map envSecondAmFail.request = ["A"] ++ "B" :: [] ∧
      envSecondAmFail.amOk pTwoCommits.base "B" = false) ∧
    ((backportOnce envSecondAmFail pTwoCommits).2 =
        Except.error (BError.gitFailed (amApplyArgs pTwoCommits.repo)) ∧
      writesOf (backportOnce envSecondAmFail pTwoCommits).1.trace =
        ["A"] ++ ["B"] ∧
      Effect.git ["push", "botrepo", pTwoCommits.head] ∉
        (backportOnce envSecondAmFail pTwoCommits).1.trace ∧
      (∀ b h t bd, Effect.createPull b h t bd ∉
        (backportOnce envSecondAmFail pTwoCommits).1.trace) ∧
      (backportOnce envSecondAmFail pTwoCommits).1.trace =
        pTwoCommits.commits.map Effect.request ++
        [Effect.git ["fetch", "origin"],
         Effect.git ["checkout", "origin/" ++ pTwoCommits.base],
         Effect.git ["checkout", "-b", pTwoCommits.head]] ++
        applySeq pTwoCommits.repo ["A"] ++
        [Effect.writeFile (patchFile pTwoCommits.repo) "B",
         Effect.git (amApplyArgs pTwoCommits.repo)] ++
        [Effect.git amAbortArgs]) :=
  ⟨⟨rfl, rfl⟩,
    backportOnce_aborts_on_apply_failure envSecondAmFail pTwoCommits
      ["A"] [] "B" rfl rfl rfl rfl (by decide) rfl rfl⟩

end Backport

namespace Backport

theorem execGitList_all_ok (env : Env) (cmds : List (List String))
    (h : ∀ a ∈ cmds, env.gitOk a = true) :
    execGitList env cmds = (cmds.map Effect.git, Except.ok ()) := by
  induction cmds with
  | nil => rfl
  | cons c rest ih =>
    have hc : env.gitOk c = true := h c (List.mem_cons_self c rest)
    have hrest : ∀ a ∈ rest, env.gitOk a = true :=
      fun a ha => h a (List.mem_cons_of_mem c ha)
    simp [execGitList, hc, ih hrest]

/-- C5: with two targets and all shared setup succeeding, a failure of the
first target's executor is caught at the per-target boundary: the failure
comment is posted, the run is marked failed, and the second target is
still attempted — and, when its executor succeeds, its pull request is
opened. -/
theorem backport_isolates_target_failure (env : Env) (r : RunParams)
    (b1 h1 b2 h2 : String) (e : BError)
    (hmerged : r.merged = true)
    (hm : getBackportBaseToHead r.action r.label r.labels r.pullRequestNumber =
      [(b1, h1), (b2, h2)])
    (hsetup : ∀ a ∈ setupCmds r, env.gitOk a = true)
    (hfail : (backportOnce env (mkOnceParams r b1 h1
      (getCommits env.listCommitsResp))).2 = Except.error e)
    (hok2 : (backportOnce env (mkOnceParams r b2 h2
      (getCommits env.listCommitsResp))).2 = Except.ok ()) :
    (backport env r).2 = Except.ok () ∧
    (backport env r).1 =
      (setupCmds r).map Effect.git ++ [Effect.listCommits] ++
      ((backportOnce env (mkOnceParams r b1 h1
          (getCommits env.listCommitsResp))).1.trace ++
        ((getCommits env.listCommitsResp).map Effect.request ++
         [Effect.createComment (getFailedBackportCommentBody env b1 h1
            (errorMessage e) (getCommits env.listCommitsResp)).2,
          Effect.setFailed])) ++
      (backportOnce env (mkOnceParams r b2 h2
        (getCommits env.listCommitsResp))).1.trace ∧
    Effect.setFailed ∈ (backport env r).1 ∧
    Effect.createComment (getFailedBackportCommentBody env b1 h1
      (errorMessage e) (getCommits env.listCommitsResp)).2 ∈ (backport env r).1 ∧
    Effect.createPull b2 (r.botUsername ++ ":" ++ h2)
      ("[Backport " ++ b2 ++ "] " ++ r.originalTitle)
      ("Backport " ++ r.mergeCommitSha ++ " from #" ++
        toString r.pullRequestNumber) ∈ (backport env r).1 := by
  have hpull := ((backportOnce_props env
    (mkOnceParams r b2 h2 (getCommits env.listCommitsResp))).1 hok2).2
  have hbp : backport env r =
      ((setupCmds r).map Effect.git ++ [Effect.listCommits] ++
        runTargets env r (getCommits env.listCommitsResp) [(b1, h1), (b2, h2)],
       Except.ok ()) := by
    unfold backport
    rw [hmerged, hm]
    rw [execGitList_all_ok env _ hsetup]
    simp
  have hrt : runTargets env r (getCommits env.listCommitsResp)
      [(b1, h1), (b2, h2)] =
      ((backportOnce env (mkOnceParams r b1 h1
          (getCommits env.listCommitsResp))).1.trace ++
        ((getCommits env.listCommitsResp).map Effect.request ++
         [Effect.createComment (getFailedBackportCommentBody env b1 h1
            (errorMessage e) (getCommits env.listCommitsResp)).2,
          Effect.setFailed])) ++
      ((backportOnce env (mkOnceParams r b2 h2
          (getCommits env.listCommitsResp))).1.trace ++ []) := by
    cases hres1 : backportOnce env (mkOnceParams r b1 h1
        (getCommits env.listCommitsResp)) with
    | mk s1 r1 =>
    cases hres2 : backportOnce env (mkOnceParams r b2 h2
        (getCommits env.listCommitsResp)) with
    | mk s2 r2 =>
    rw [hres1] at hfail
    rw [hres2] at hok2
    have hr1 : r1 = Except.error e := hfail
    have hr2 : r2 = Except.ok () := hok2
    subst hr1
    subst hr2
    simp only [runTargets, hres1, hres2]
    simp [getFailedBackportCommentBody]
  refine ⟨by rw [hbp], ?_, ?_, ?_, ?_⟩
  · rw [hbp, hrt]; simp [List.append_assoc]
  · rw [hbp, hrt]; simp
  · rw [hbp, hrt]; simp
  · rw [hbp, hrt]
    have hp := hpull
    simp only [mkOnceParams] at hp
    simp only [List.mem_append, List.append_nil]
    tauto

end Backport

namespace Backport

/-- Witness for C5 at concrete inputs: two targets, applies failing only
on base `one`; the run posts the failure, is marked failed, and target
`two` still gets its pull request. -/
theorem backport_isolates_target_failure_witness :
    (rTwoTargets.merged = true ∧
     getBackportBaseToHead rTwoTargets.action rTwoTargets.label
       rTwoTargets.labels rTwoTargets.pullRequestNumber =
       [("one", "backport-1-to-one"), ("two", "backport-1-to-two")] ∧
     (backportOnce envAmFailOnOne (mkOnceParams rTwoTargets "one"
       "backport-1-to-one" (getCommits envAmFailOnOne.listCommitsResp))).2 =
       Except.error (BError.gitFailed (amApplyArgs "repo")) ∧
     (backportOnce envAmFailOnOne (mkOnceParams rTwoTargets "two"
       "backport-1-to-two" (getCommits envAmFailOnOne.listCommitsResp))).2 =
       Except.ok ()) ∧
    (Effect.setFailed ∈ (backport envAmFailOnOne rTwoTargets).1 ∧
     Effect.createPull "two" (rTwoTargets.botUsername ++ ":" ++ "backport-1-to-two")
       ("[Backport " ++ "two" ++ "] " ++ rTwoTargets.originalTitle)
       ("Backport " ++ rTwoTargets.mergeCommitSha ++ " from #" ++
         toString rTwoTargets.pullRequestNumber) ∈
       (backport envAmFailOnOne rTwoTargets).1) := by
  have hmerged : rTwoTargets.merged = true := rfl
  have hm : getBackportBaseToHead rTwoTargets.action rTwoTargets.label
      rTwoTargets.labels rTwoTargets.pullRequestNumber =
      [("one", "backport-1-to-one"), ("two", "backport-1-to-two")] := rfl
  have hsetup : ∀ a ∈ setupCmds rTwoTargets, envAmFailOnOne.gitOk a = true :=
    fun a _ => rfl
  have hfail : (backportOnce envAmFailOnOne (mkOnceParams rTwoTargets "one"
      "backport-1-to-one" (getCommits envAmFailOnOne.listCommitsResp))).2 =
      Except.error (BError.gitFailed (amApplyArgs "repo")) := rfl
  have hok2 : (backportOnce envAmFailOnOne (mkOnceParams rTwoTargets "two"
      "backport-1-to-two" (getCommits envAmFailOnOne.listCommitsResp))).2 =
      Except.ok () := rfl
  have h := backport_isolates_target_failure envAmFailOnOne rTwoTargets
    "one" "backport-1-to-one" "two" "backport-1-to-two"
    (BError.gitFailed (amApplyArgs "repo")) hmerged hm hsetup hfail hok2
  exact ⟨⟨hmerged, hm, hfail, hok2⟩, h.2.2.1, h.2.2.2.2⟩

theorem strContains_append_left (a b sub : String) (h : strContains a sub) :
    strContains (a ++ b) sub := by
  obtain ⟨l, r, hd⟩ := h
  exact ⟨l, r ++ b.data, by simp [strData_append, hd]⟩

theorem strContains_append_right (a b sub : String) (h : strContains b sub) :
    strContains (a ++ b) sub := by
  obtain ⟨l, r, hd⟩ := h
  exact ⟨a.data ++ l, r, by simp [strData_append, hd]⟩

theorem strContains_refl (s : String) : strContains s s :=
  ⟨[], [], by simp⟩

theorem strContains_right_piece (x sub : String) :
    strContains (x ++ sub) sub :=
  strContains_append_right x sub sub (strContains_refl sub)

theorem joinLines_mem_contains (L : List String) (line sub : String)
    (hm : line ∈ L) (hc : strContains line sub) :
    strContains (joinLines L) sub := by
  induction L with
  | nil => cases hm
  | cons l rest ih =>
    rcases List.mem_cons.mp hm with h | h
    · subst h
      cases rest with
      | nil => exact hc
      | cons r rs =>
        exact strContains_append_left _ _ _ (strContains_append_left _ _ _ hc)
    · cases rest with
      | nil => cases h
      | cons r rs =>
        exact strContains_append_right (l ++ "\n") _ _ (ih h)

end Backport

namespace Backport

/-- C9: the failure comment begins with a line naming the target base
followed by a fenced block containing the literal error message; it
literally contains the base, head and error-message strings; its shell
transcript lines occur in the order fetch, checkout, branch-create, the
per-commit apply commands, push; and its last line names base and head
verbatim. -/
theorem failure_comment_format (env : Env) (b h e : String)
    (commits : List String) :
    strStarts (getFailedBackportCommentBody env b h e commits).2
      ("The backport to `" ++ b ++ "` failed:" ++ "\n" ++ "```" ++ "\n" ++
        e ++ "\n" ++ "```" ++ "\n") ∧
    (strContains (getFailedBackportCommentBody env b h e commits).2 b ∧
     strContains (getFailedBackportCommentBody env b h e commits).2 h ∧
     strContains (getFailedBackportCommentBody env b h e commits).2 e) ∧
    List.Sublist
      (["git fetch", "git checkout " ++ b, "git checkout -b " ++ h] ++
        commits.map (fun u => commitCommand (env.htmlUrl u)) ++
        ["git push --set-upstream origin " ++ h])
      (getFailedBackportCommentLines b h e
        (commits.map (fun u => commitCommand (env.htmlUrl u)))
        (runUrlOf env.ctxOwner env.ctxRepo env.ctxRunId)) ∧
    (getFailedBackportCommentLines b h e
        (commits.map (fun u => commitCommand (env.htmlUrl u)))
        (runUrlOf env.ctxOwner env.ctxRepo env.ctxRunId)).getLast? =
      some ("Then, create a pull request where the `base` branch is `" ++
        b ++ "` and the `compare`/`head` branch is `" ++ h ++ "`.") := by
  refine ⟨?_, ⟨?_, ?_, ?_⟩, ?_, ?_⟩
  · refine ⟨(joinLines ((getFailedBackportCommentLines b h e
      (commits.map (fun u => commitCommand (env.htmlUrl u)))
      (runUrlOf env.ctxOwner env.ctxRepo env.ctxRunId)).drop 4)).data, ?_⟩
    simp [getFailedBackportCommentBody, getFailedBackportCommentLines,
      joinLines, strData_append, List.append_assoc]
  · apply joinLines_mem_contains _ ("git checkout " ++ b)
    · simp [getFailedBackportCommentLines]
    · exact strContains_right_piece "git checkout " b
  · apply joinLines_mem_contains _ ("git checkout -b " ++ h)
    · simp [getFailedBackportCommentLines]
    · exact strContains_right_piece "git checkout -b " h
  · apply joinLines_mem_contains _ e
    · simp [getFailedBackportCommentLines]
    · exact strContains_refl e
  · unfold getFailedBackportCommentLines
    refine List.Sublist.append (List.Sublist.append ?_ (List.Sublist.refl _)) ?_
    · apply List.Sublist.cons
      apply List.Sublist.cons
      apply List.Sublist.cons
      apply List.Sublist.cons
      apply List.Sublist.cons
      apply List.Sublist.cons
      apply List.Sublist.cons
      apply List.Sublist.cons
      apply List.Sublist.cons₂
      apply List.Sublist.cons
      apply List.Sublist.cons₂
      apply List.Sublist.cons
      apply List.Sublist.cons
      apply List.Sublist.cons
      apply List.Sublist.cons₂
      apply List.Sublist.cons
      exact List.Sublist.slnil
    · apply List.Sublist.cons
      apply List.Sublist.cons₂
      exact List.nil_sublist _
  · unfold getFailedBackportCommentLines
    rw [List.getLast?_append_of_ne_nil _ (by simp)]
    rfl

end Backport
